import Mathlib

/-!
Verification development for the dacli documentation-index system.

Strings are modelled as `List Char`.  Python's `str.lower` is modelled by
`Char.toLower` (ASCII lowering), Python's `\w` character class by ASCII
alphanumerics plus underscore, and `\s` by `Char.isWhitespace`; the
structural properties proved below do not depend on the exact extent of
these classes.  File paths are modelled as their POSIX string
representation, assumed free of trailing separators.
-/

namespace Dacli

/-- Model of Python's `\s` class used by `slugify` and the parsers. -/
def isWs (c : Char) : Bool := c.isWhitespace

/-- Model of Python's `\w` class (ASCII core): letters, digits, underscore. -/
def isWordChar (c : Char) : Bool := c.isAlphanum || c == '_'

/-- Characters kept by `re.sub(r"[^\w\s-]", "", ·)` in `slugify`. -/
def keepChar (c : Char) : Bool := isWordChar c || isWs c || c == '-'

/-- Characters replaced by a dash in `re.sub(r"[\s_]+", "-", ·)`. -/
def isWsU (c : Char) : Bool := isWs c || c == '_'

/-- Replace every maximal run of characters satisfying `p` by the single
character `r`; the Boolean argument records whether the previous input
character was part of such a run.  This is the effect of
`re.sub(p+, r, ·)`. -/
def subRunsGo (p : Char → Bool) (r : Char) : Bool → List Char → List Char
  | _, [] => []
  | inRun, c :: cs =>
    if p c then
      if inRun then subRunsGo p r true cs
      else r :: subRunsGo p r true cs
    else c :: subRunsGo p r false cs

/-- Replace every maximal run of characters satisfying `p` by `r`. -/
def subRuns (p : Char → Bool) (r : Char) (l : List Char) : List Char :=
  subRunsGo p r false l

/-- Python's `str.strip("-")`: remove leading and trailing dashes. -/
def stripDashes (l : List Char) : List Char :=
  ((l.dropWhile (· == '-')).reverse.dropWhile (· == '-')).reverse

/-- Python's `str.strip()`: remove leading and trailing whitespace. -/
def pyStrip (l : List Char) : List Char :=
  ((l.dropWhile isWs).reverse.dropWhile isWs).reverse

/-- `dacli.parser_utils.slugify`: lowercase, drop characters outside
`[\w\s-]`, replace runs of whitespace and underscores by a dash, collapse
dash runs, and trim leading/trailing dashes. -/
def slugify (text : List Char) : List Char :=
  let slug := (text.map Char.toLower).filter keepChar
  let slug := subRuns isWsU '-' slug
  let slug := subRuns (· == '-') '-' slug
  stripDashes slug

/-- Known document extensions stripped by `strip_doc_extension`
(`dacli.parser_utils.KNOWN_DOC_EXTENSIONS`). -/
def KNOWN_DOC_EXTENSIONS : List (List Char) :=
  [".md".data, ".adoc".data, ".asciidoc".data]

/-- Final path component (`pathlib.PurePath.name`) of a POSIX path string. -/
def pathName (p : List Char) : List Char :=
  (p.reverse.takeWhile (· ≠ '/')).reverse

/-- `pathlib.PurePath.suffix`: the part of the name from the last dot on,
provided that dot is neither the first nor the last character of the
name; otherwise the empty string. -/
def pathSuffixOf (p : List Char) : List Char :=
  match (pathName p).reverse.findIdx? (· = '.') with
  | none => []
  | some j =>
    if 0 < (pathName p).length - 1 - j && 0 < j then
      (pathName p).drop ((pathName p).length - 1 - j)
    else []

/-- `str(file_path).replace("\\", "/")`. -/
def normSlashes (p : List Char) : List Char :=
  p.map (fun c => if c = '\\' then '/' else c)

/-- `dacli.parser_utils.strip_doc_extension`: remove the final suffix only
when, lowercased, it is a known documentation extension; use forward
slashes in the result. -/
def strip_doc_extension (p : List Char) : List Char :=
  if ((pathSuffixOf p).map Char.toLower) ∈ KNOWN_DOC_EXTENSIONS then
    (normSlashes p).take ((normSlashes p).length - (pathSuffixOf p).length)
  else
    normSlashes p

/-- No two adjacent characters of the list are both dashes (Python's
`"--" not in s`). -/
def noTwoDash : List Char → Bool
  | [] => true
  | [_] => true
  | a :: b :: rest => !(a == '-' && b == '-') && noTwoDash (b :: rest)

/-- `mcp_server.asciidoc_parser._title_to_slug`: lowercase, drop characters
outside `[\w\s-]`, replace whitespace runs by a dash.  Unlike `slugify`
it does not touch underscores and does not collapse or trim dashes. -/
def _title_to_slug (title : List Char) : List Char :=
  subRuns isWs '-' ((title.map Char.toLower).filter keepChar)

/-- `mcp_server.models.SourceLocation`: file, 1-based line, and an optional
link back to the include directive that pulled the line in. -/
inductive SourceLocation where
  | mk (file : List Char) (line : Nat) (resolvedFrom : Option SourceLocation)

/-- `mcp_server.models.Section`: title, level (0 = document title), path,
source location, ordered children, optional anchor. -/
inductive Section where
  | mk (title : List Char) (level : Nat) (path : List Char)
      (loc : SourceLocation) (children : List Section)
      (anchor : Option (List Char))

def Section.title : Section → List Char
  | .mk t _ _ _ _ _ => t

def Section.level : Section → Nat
  | .mk _ l _ _ _ _ => l

def Section.path : Section → List Char
  | .mk _ _ p _ _ _ => p

def Section.loc : Section → SourceLocation
  | .mk _ _ _ loc _ _ => loc

def Section.children : Section → List Section
  | .mk _ _ _ _ cs _ => cs

/-- Remove the longest suffix matching `\s+=*` (the optional trailing
`(?:\s+=*)?` group of `SECTION_PATTERN`, which the lazy `(.+?)` leaves
out of the title). -/
def stripTrailingEquals (l : List Char) : List Char :=
  let r := l.reverse
  let afterEq := r.dropWhile (· == '=')
  let afterWs := afterEq.dropWhile isWs
  if afterWs.length < afterEq.length then afterWs.reverse else l

/-- Match of `SECTION_PATTERN = ^(={1,6})\s+(.+?)(?:\s+=*)?$` together with
the `.strip()` applied to group 2 by `_parse_sections`: returns the
number of equals signs and the stripped title.  A line matches exactly
when it starts with one to six equals signs followed by a whitespace
character and at least one further character. -/
def matchSectionPattern (line : List Char) : Option (Nat × List Char) :=
  let eqs := (line.takeWhile (· == '=')).length
  let rest := line.drop eqs
  if 1 ≤ eqs ∧ eqs ≤ 6 ∧ (match rest.head? with | some c => isWs c | none => false) = true
      ∧ 2 ≤ rest.length then
    some (eqs, pyStrip (stripTrailingEquals (rest.dropWhile isWs)))
  else
    none

/-- Python's `str.replace(pat, rep)`: replace all non-overlapping
occurrences, scanning left to right.  For the empty pattern the input is
returned unchanged (the attribute patterns `{name}` are never empty). -/
def replaceAll (pat rep : List Char) : List Char → List Char
  | [] => []
  | c :: rest =>
    if h : pat ≠ [] ∧ pat.isPrefixOf (c :: rest) then
      rep ++ replaceAll pat rep ((c :: rest).drop pat.length)
    else
      c :: replaceAll pat rep rest
termination_by l => l.length
decreasing_by
  · simp only [List.length_drop, List.length_cons]
    have : 1 ≤ pat.length := by
      cases hp : pat with
      | nil => exact absurd hp h.1
      | cons a as => simp
    omega
  · simp

/-- `mcp_server.asciidoc_parser.AsciidocParser._substitute_attributes`:
replace each `{name}` by its value, iterating over the attribute list in
order. -/
def _substitute_attributes (attributes : List (List Char × List Char))
    (text : List Char) : List Char :=
  attributes.foldl (fun acc nv => replaceAll ('{' :: nv.1 ++ ['}']) nv.2 acc) text

/-- An expanded input line of `_parse_sections`:
`(text, source file, 1-based line number, resolved_from)`. -/
structure LineInfo where
  text : List Char
  file : List Char
  line : Nat
  resolvedFrom : Option SourceLocation

/-- An open section on the parsing stack of `_parse_sections`, with the
children accumulated so far. -/
structure Frame where
  title : List Char
  level : Nat
  path : List Char
  loc : SourceLocation
  children : List Section

/-- Close a stack frame into a finished `Section` (anchor is always
`None` in the current parser). -/
def closeSec (f : Frame) : Section :=
  .mk f.title f.level f.path f.loc f.children none

/-- State of the `_parse_sections` loop: completed top-level sections,
the stack of open sections (head = innermost), and the document title. -/
structure PState where
  roots : List Section
  stack : List Frame
  dtitle : List Char

/-- Continuation of the pop loop: `s` is the section just closed; it is
attached to the next frame down, which is itself closed and passed on
while its level is still `≥ level`. -/
def popGEAux (level : Nat) : Section → List Frame → List Section → List Frame × List Section
  | s, [], roots => ([], roots ++ [s])
  | s, g :: gs, roots =>
    if level ≤ g.level then
      popGEAux level (closeSec { g with children := g.children ++ [s] }) gs roots
    else
      ({ g with children := g.children ++ [s] } :: gs, roots)

/-- Pop stack frames while the innermost open section's level is `≥ level`
(the `while section_stack and section_stack[-1].level >= level` loop);
a closed frame becomes a child of the frame below it, or a new top-level
section when the stack empties. -/
def popGE (level : Nat) : List Frame → List Section → List Frame × List Section
  | [], roots => ([], roots)
  | f :: fs, roots =>
    if level ≤ f.level then popGEAux level (closeSec f) fs roots
    else (f :: fs, roots)

/-- Continuation of `closeAll`: fold the just-closed section into the
next frame down until the stack is empty. -/
def closeAllAux : Section → List Frame → List Section → List Section
  | s, [], roots => roots ++ [s]
  | s, g :: gs, roots => closeAllAux (closeSec { g with children := g.children ++ [s] }) gs roots

/-- Close every open frame (used when a new document title starts and at
the end of input). -/
def closeAll : List Frame → List Section → List Section
  | [], roots => roots
  | f :: fs, roots => closeAllAux (closeSec f) fs roots

/-- One iteration of the `_parse_sections` line loop. -/
def pstep (attributes : List (List Char × List Char)) (st : PState)
    (li : LineInfo) : PState :=
  match matchSectionPattern li.text with
  | none => st
  | some (eqs, rawTitle) =>
    if eqs - 1 = 0 then
      { roots := closeAll st.stack st.roots
        stack := [⟨_substitute_attributes attributes rawTitle, 0,
          _title_to_slug (_substitute_attributes attributes rawTitle),
          SourceLocation.mk li.file li.line li.resolvedFrom, []⟩]
        dtitle := _substitute_attributes attributes rawTitle }
    else
      match popGE (eqs - 1) st.stack st.roots with
      | ([], roots') =>
        { roots := roots'
          stack := [⟨_substitute_attributes attributes rawTitle, eqs - 1,
            _title_to_slug (_substitute_attributes attributes rawTitle),
            SourceLocation.mk li.file li.line li.resolvedFrom, []⟩]
          dtitle := st.dtitle }
      | (g :: rest, roots') =>
        { roots := roots'
          stack := ⟨_substitute_attributes attributes rawTitle, eqs - 1,
            g.path ++ '.' :: _title_to_slug (_substitute_attributes attributes rawTitle),
            SourceLocation.mk li.file li.line li.resolvedFrom, []⟩ :: (g :: rest)
          dtitle := st.dtitle }

/-- `mcp_server.asciidoc_parser.AsciidocParser._parse_sections`: build the
section forest and document title from expanded lines.  The Python
version attaches each child to its parent by mutation at creation time;
here children are folded into their parent when the frame is closed,
which produces the same trees in the same order. -/
def _parse_sections (lines : List LineInfo) (filePath : List Char)
    (attributes : List (List Char × List Char)) : List Section × List Char :=
  if lines.isEmpty then ([], [])
  else
    let st := lines.foldl (pstep attributes) ⟨[], [], []⟩
    (closeAll st.stack st.roots, st.dtitle)

/-- Association-list lookup keyed by strings (first match). -/
def assocFind {α : Type} (m : List (List Char × α)) (k : List Char) : Option α :=
  (m.find? (fun e => e.1 == k)).map (·.2)

/-- Association-list update with Python `dict` semantics: replace the
existing binding in place, or append a new one. -/
def assocSet {α : Type} : List (List Char × α) → List Char → α → List (List Char × α)
  | [], k, v => [(k, v)]
  | (k', v') :: rest, k, v =>
    if k' == k then (k, v) :: rest else (k', v') :: assocSet rest k v

/-- Characters allowed in an attribute name by
`ATTRIBUTE_PATTERN = ^:([a-zA-Z0-9_-]+):\s*(.*)$`. -/
def isAttrNameChar (c : Char) : Bool := c.isAlphanum || c == '_' || c == '-'

/-- Match of `ATTRIBUTE_PATTERN` together with the `.strip()` applied to
the value by `_parse_attributes`. -/
def matchAttr (l : List Char) : Option (List Char × List Char) :=
  match l with
  | ':' :: rest =>
    let name := rest.takeWhile isAttrNameChar
    if name ≠ [] ∧ (rest.drop name.length).head? = some ':' then
      some (name, pyStrip (rest.drop (name.length + 1)))
    else none
  | _ => none

/-- `mcp_server.asciidoc_parser.AsciidocParser._parse_attributes`: collect
`:name: value` attributes, stopping at the first section heading that is
neither blank nor starts with a colon. -/
def _parse_attributes : List (List Char) → List (List Char × List Char) → List (List Char × List Char)
  | [], acc => acc
  | l :: ls, acc =>
    match matchAttr l with
    | some nv => _parse_attributes ls (assocSet acc nv.1 nv.2)
    | none =>
      if pyStrip l ≠ [] ∧ l.head? ≠ some ':' ∧ (matchSectionPattern l).isSome then acc
      else _parse_attributes ls acc

/-- `mcp_server.asciidoc_parser.IncludeInfo`. -/
structure IncludeInfo where
  source_location : SourceLocation
  target_path : List Char
  options : List (List Char × List Char)

/-- Match of `INCLUDE_PATTERN = ^include::(.+?)\[(.*)\]$`: target path up
to the first opening bracket, options between it and the final closing
bracket. -/
def parseInclude (line : List Char) : Option (List Char × List Char) :=
  if "include::".data.isPrefixOf line then
    let rest := line.drop 9
    let target := rest.takeWhile (· ≠ '[')
    let rrest := rest.drop target.length
    if 1 ≤ target.length ∧ rrest.head? = some '[' ∧ rrest.getLast? = some ']' ∧ 2 ≤ rrest.length then
      some (target, (rrest.drop 1).dropLast)
    else none
  else none

/-- Include options `k=v,...` parsed as in `_expand_includes`: split on
commas, keep parts containing `=`, split each at the first `=`, strip
both sides; later duplicate keys overwrite earlier ones (`dict`). -/
def parseOptions (s : List Char) : List (List Char × List Char) :=
  if s = [] then []
  else
    (s.splitOn ',').foldl
      (fun acc opt =>
        if '=' ∈ opt then
          assocSet acc (pyStrip (opt.takeWhile (· ≠ '='))) (pyStrip ((opt.dropWhile (· ≠ '=')).drop 1))
        else acc)
      []

/-- Directory part of a POSIX path string (`pathlib.PurePath.parent`,
empty for a bare file name). -/
def dirOf (p : List Char) : List Char :=
  ((p.reverse.dropWhile (· ≠ '/')).drop 1).reverse

/-- Model of `(file_path.parent / include_path).resolve()`: join the
including file's directory with the include target (symlink and `..`
normalization is not modelled). -/
def resolveRel (filePath target : List Char) : List Char :=
  let d := dirOf filePath
  if d = [] then target else d ++ '/' :: target

/-- In-memory filesystem: existing files with their lines. -/
def FS : Type := List (List Char × List (List Char))

/-- Read a file from the model filesystem (`Path.exists` + `read_text`). -/
def fsRead (fs : FS) (p : List Char) : Option (List (List Char)) :=
  assocFind fs p

/-- Default `max_include_depth` of `AsciidocParser.__init__`. -/
def defaultMaxIncludeDepth : Nat := 20

/-- `mcp_server.asciidoc_parser.AsciidocParser._expand_includes`: expand
include directives one level (recorded includes keep their source
location), passing other lines through; at or beyond the maximum depth
include lines are passed through unexpanded. -/
def expandStep (fs : FS) (maxIncludeDepth : Nat) (filePath : List Char) (depth : Nat)
    (acc : List LineInfo × List IncludeInfo) (nl : Nat × List Char) :
    List LineInfo × List IncludeInfo :=
  match parseInclude nl.2 with
  | some tgtOpts =>
    if depth < maxIncludeDepth then
      let options := parseOptions tgtOpts.2
      let targetPath := resolveRel filePath tgtOpts.1
      let inc : IncludeInfo := ⟨SourceLocation.mk filePath nl.1 none, targetPath, options⟩
      match fsRead fs targetPath with
      | some includedLines =>
        let resolvedFrom := SourceLocation.mk filePath nl.1 none
        (acc.1 ++ (List.enumFrom 1 includedLines).map
            (fun m => LineInfo.mk m.2 targetPath m.1 (some resolvedFrom)),
         acc.2 ++ [inc])
      | none => (acc.1, acc.2 ++ [inc])
    else
      (acc.1 ++ [LineInfo.mk nl.2 filePath nl.1 none], acc.2)
  | none => (acc.1 ++ [LineInfo.mk nl.2 filePath nl.1 none], acc.2)

/-- `mcp_server.asciidoc_parser.AsciidocParser._expand_includes`: expand
include directives one level (recorded includes keep their source
location), passing other lines through; at or beyond the maximum depth
include lines are passed through unexpanded. -/
def _expand_includes (fs : FS) (maxIncludeDepth : Nat) (lines : List (List Char))
    (filePath : List Char) (depth : Nat) : List LineInfo × List IncludeInfo :=
  (List.enumFrom 1 lines).foldl (expandStep fs maxIncludeDepth filePath depth) ([], [])

/-- A non-section structural element.  Modelled from the spec: the
`Element` data model of §3 (`dacli.models` is not in the source tree). -/
structure Element where
  etype : List Char
  parent_section : List Char
  content : List Char

/-- A parsed document.  Modelled from the spec: the `Document` data model
of §3 (`dacli.models` is not in the source tree); AsciiDoc documents
additionally carry attributes and includes. -/
structure Document where
  file_path : List Char
  title : List Char
  sections : List Section
  elements : List Element
  attributes : List (List Char × List Char)
  includes : List IncludeInfo

/-- `mcp_server.asciidoc_parser.AsciidocParser.parse_file`: read the file
(`none` models the `FileNotFoundError`), parse attributes, expand
includes, and parse sections. -/
def parse_file (fs : FS) (maxIncludeDepth : Nat) (filePath : List Char)
    (depth : Nat) : Option Document :=
  match fsRead fs filePath with
  | none => none
  | some lines =>
    let attributes := _parse_attributes lines []
    let expanded := _expand_includes fs maxIncludeDepth lines filePath depth
    let secs := _parse_sections expanded.1 filePath attributes
    some ⟨filePath, secs.2, secs.1, [], attributes, expanded.2⟩

mutual

/-- `dacli.parser_utils.collect_all_sections`: pre-order flattening of a
section forest. -/
def collect_all_sections : List Section → List Section
  | [] => []
  | s :: ss => collectSec s ++ collect_all_sections ss

/-- One section followed by its pre-order flattened descendants. -/
def collectSec : Section → List Section
  | .mk t l p loc cs a => .mk t l p loc cs a :: collect_all_sections cs

end

def SourceLocation.file : SourceLocation → List Char
  | .mk f _ _ => f

def SourceLocation.line : SourceLocation → Nat
  | .mk _ n _ => n

/-- A build-time or validation finding with a type tag, affected path and
message.  Modelled from the spec: build warnings carry
`{path, message mentioning both files/lines}` (§4.2). -/
structure Warning where
  wtype : List Char
  wpath : List Char
  message : List Char

/-- Message of a `duplicate_path` warning, mentioning both colliding
files and lines.  Modelled from the spec (§4.2). -/
def mkDupMessage (path : List Char) (oldLoc newLoc : SourceLocation) : List Char :=
  "duplicate path ".data ++ path ++ ": ".data
    ++ newLoc.file ++ ":".data ++ Nat.toDigits 10 newLoc.line
    ++ " collides with ".data
    ++ oldLoc.file ++ ":".data ++ Nat.toDigits 10 oldLoc.line

/-- State of the `build_from_documents` registration pass: the flat
path → section map and the collected warnings. -/
structure BuildState where
  flat : List (List Char × Section)
  warnings : List Warning

/-- Register one section into the flat map.  Modelled from the spec
(§4.2): an existing path yields a `duplicate_path` warning and the
most-recently-seen section wins; a new path is added. -/
def regOne (st : BuildState) (s : Section) : BuildState :=
  match assocFind st.flat s.path with
  | some old =>
    { flat := assocSet st.flat s.path s
      warnings := st.warnings ++ [⟨"duplicate_path".data, s.path, mkDupMessage s.path old.loc s.loc⟩] }
  | none =>
    { flat := st.flat ++ [(s.path, s)], warnings := st.warnings }

/-- The pre-order list of every section of every document, in document
order — the registration order of `build_from_documents`. -/
def allSections (docs : List Document) : List Section :=
  docs.flatMap (fun d => collect_all_sections d.sections)

/-- The built structure index.  Modelled from the spec (§3): flat
path map, file → sections map, the forest of top-level sections in
document order, per-document includes, and build-time warnings. -/
structure StructureIndex where
  flat : List (List Char × Section)
  fileSections : List (List Char × List Section)
  forest : List Section
  docIncludes : List (List Char × List IncludeInfo)
  warnings : List Warning

/-- `StructureIndex.build_from_documents`.  Modelled from the spec (§4.2):
walk every section tree in order, register each section into the flat
map (duplicates warn, last write wins), record the file → sections map
and keep every section in the forest. -/
def build_from_documents (docs : List Document) : StructureIndex :=
  let st := (allSections docs).foldl regOne ⟨[], []⟩
  { flat := st.flat
    fileSections := docs.map (fun d => (d.file_path, d.sections))
    forest := docs.flatMap (fun d => d.sections)
    docIncludes := docs.map (fun d => (d.file_path, d.includes))
    warnings := st.warnings }

/-- `StructureIndex.get_section`.  Modelled from the spec (§4.2): exact
lookup in the flat map. -/
def get_section (idx : StructureIndex) (path : List Char) : Option Section :=
  assocFind idx.flat path

/-- Prune a section tree to the given remaining depth: at depth 0 the
children are emptied. -/
def pruneSec (n : Nat) (s : Section) : Section :=
  match n, s with
  | 0, .mk t l p loc _ a => .mk t l p loc [] a
  | n + 1, .mk t l p loc cs a => .mk t l p loc (cs.map (pruneSec n)) a

mutual

/-- Total number of sections in a forest. -/
def countAllF : List Section → Nat
  | [] => 0
  | s :: ss => countSec s + countAllF ss

/-- Total number of sections in a tree. -/
def countSec : Section → Nat
  | .mk _ _ _ _ cs _ => 1 + countAllF cs

end

/-- Paths of the sections sitting at exactly the given depth of a forest
(documents are depth 0). -/
def atDepthPaths : Nat → List Section → List (List Char)
  | 0, F => F.map Section.path
  | d + 1, F => (F.map (fun s => atDepthPaths d s.children)).flatten

/-- Result of `get_structure`. -/
structure GetStructureResult where
  sections : List Section
  totalSections : Nat

/-- `StructureIndex.get_structure`.  Modelled from the spec (§4.2): the
forest pruned to `max_depth` (`none` = unbounded, depth `N` inclusive),
together with the total section count of the entire index, unaffected
by pruning. -/
def get_structure (idx : StructureIndex) (maxDepth : Option Nat) : GetStructureResult :=
  { sections :=
      match maxDepth with
      | none => idx.forest
      | some n => idx.forest.map (pruneSec n)
    totalSections := countAllF idx.forest }

/-- An error finding of `validate_structure`. -/
structure Finding where
  ftype : List Char
  message : List Char

/-- Result of `validate_structure`. -/
structure ValidationResult where
  valid : Bool
  errors : List Finding
  warnings : List Warning

/-- All include directives recorded in the index, across all documents. -/
def allIncludes (idx : StructureIndex) : List IncludeInfo :=
  idx.docIncludes.flatMap (·.2)

/-- Directed include edges `including file → target file`. -/
def includeEdges (idx : StructureIndex) : List (List Char × List Char) :=
  idx.docIncludes.flatMap (fun fi => fi.2.map (fun i => (fi.1, i.target_path)))

/-- Fuel-bounded reachability along include edges. -/
def reachInc (edges : List (List Char × List Char)) : Nat → List Char → List Char → Bool
  | 0, _, _ => false
  | fuel + 1, cur, tgt =>
    (edges.filter (fun e => e.1 == cur)).any
      (fun e => e.2 == tgt || reachInc edges fuel e.2 tgt)

/-- A file lies on an include cycle when it can reach itself in at least
one step along include edges. -/
def onIncludeCycle (idx : StructureIndex) (f : List Char) : Bool :=
  reachInc (includeEdges idx) ((includeEdges idx).length + 1) f f

/-- Message of an `unresolved_include` error, naming the missing file.
Modelled from the spec (§4.5). -/
def mkUnresolvedMessage (i : IncludeInfo) : List Char :=
  "unresolved include: ".data ++ i.target_path ++ " does not exist".data

/-- `dacli.services.validation_service.validate_structure`.  Modelled
from the spec (§4.5): every include whose target does not exist on disk
is an `unresolved_include` error; duplicate-path build warnings are
surfaced as warnings, as are `circular_include` findings for files on a
mutual-include cycle; `valid` is false iff at least one error exists. -/
def validate_structure (idx : StructureIndex) (existing : List (List Char)) : ValidationResult :=
  let errors :=
    ((allIncludes idx).filter (fun i => !(existing.contains i.target_path))).map
      (fun i => Finding.mk "unresolved_include".data (mkUnresolvedMessage i))
  let circular :=
    ((idx.docIncludes.map (·.1)).filter (onIncludeCycle idx)).map
      (fun f => Warning.mk "circular_include".data f ("circular include involving ".data ++ f))
  { valid := errors.isEmpty
    errors := errors
    warnings := idx.warnings ++ circular }

/-- Result of a tool-layer call: success payload or a caller error with a
descriptive message.  Modelled from the spec (§7). -/
inductive ToolResult (α : Type) where
  | ok (val : α)
  | callerError (message : List Char)

def ToolResult.isCallerError {α : Type} : ToolResult α → Bool
  | .ok _ => false
  | .callerError _ => true

/-- Does the haystack contain the needle as a contiguous substring
(Python's `in`)? -/
def hasSub (needle : List Char) : List Char → Bool
  | [] => needle.isEmpty
  | c :: rest => needle.isPrefixOf (c :: rest) || hasSub needle rest

/-- One search hit: path, title and the matched line of context. -/
structure SearchResult where
  rpath : List Char
  rtitle : List Char
  snippet : List Char

/-- Case folding used by search when `case_sensitive` is false. -/
def foldCase (caseSensitive : Bool) (l : List Char) : List Char :=
  if caseSensitive then l else l.map Char.toLower

/-- The `search` tool.  Modelled from the spec (§4.3, §7): negative
`max_results` and empty or all-whitespace queries are caller errors;
otherwise literal substring matching over section titles and content
(`contentOf` resolves a section's body text), restricted to paths
starting with `scope`, trimmed to `max_results`. -/
def search (idx : StructureIndex) (contentOf : List Char → List Char)
    (query : List Char) (scope : Option (List Char)) (caseSensitive : Bool)
    (maxResults : Option Int) : ToolResult (List SearchResult) :=
  if (maxResults.map (fun m => decide (m < (0 : Int)))).getD false then
    .callerError "max_results must be non-negative".data
  else if pyStrip query = [] then
    .callerError "query must not be empty".data
  else
    let candidates := (collect_all_sections idx.forest).filter
      (fun s => match scope with
        | none => true
        | some pre => pre.isPrefixOf s.path)
    let q := foldCase caseSensitive query
    let hits := candidates.filter
      (fun s => hasSub q (foldCase caseSensitive s.title)
        || hasSub q (foldCase caseSensitive (contentOf s.path)))
    let results := hits.map (fun s => SearchResult.mk s.path s.title (contentOf s.path))
    .ok (match maxResults with
      | none => results
      | some m => results.take m.toNat)

/-- Sections sitting at exactly the given depth of a forest. -/
def sectionsAtDepth : Nat → List Section → List Section
  | 0, F => F
  | d + 1, F => (F.map (fun s => sectionsAtDepth d s.children)).flatten

/-- The `get_structure` tool.  Modelled from the spec (§7): negative
`max_depth` is a caller error, rejected eagerly. -/
def get_structure_tool (idx : StructureIndex) (maxDepth : Option Int) :
    ToolResult GetStructureResult :=
  if (maxDepth.map (fun m => decide (m < (0 : Int)))).getD false then
    .callerError "max_depth must be non-negative".data
  else
    .ok (get_structure idx (maxDepth.map Int.toNat))

/-- The `get_sections_at_level` tool.  Modelled from the spec (§7, §8):
non-positive levels are caller errors; unmatched levels yield an empty
list, never an error. -/
def get_sections_at_level (idx : StructureIndex) (level : Int) :
    ToolResult (List Section) :=
  if level ≤ 0 then
    .callerError "level must be positive".data
  else
    .ok (sectionsAtDepth level.toNat idx.forest)

/-- Recognized element types (§3). -/
def knownElementTypes : List (List Char) :=
  ["code_block".data, "table".data, "image".data, "list".data, "admonition".data]

/-- The `get_elements` tool.  Modelled from the spec (§7): negative
`content_limit` and unknown `element_type` filters are caller errors;
otherwise the documents' elements, filtered by type, with content
truncated to the limit. -/
def get_elements (docs : List Document) (elementType : Option (List Char))
    (includeContent : Bool) (contentLimit : Option Int) : ToolResult (List Element) :=
  if (contentLimit.map (fun m => decide (m < (0 : Int)))).getD false then
    .callerError "content_limit must be non-negative".data
  else if (elementType.map (fun t => !(knownElementTypes.contains t))).getD false then
    .callerError "element_type must be one of the known element types".data
  else
    let els := docs.flatMap (·.elements)
    let els := match elementType with
      | none => els
      | some t => els.filter (fun e => e.etype == t)
    let els :=
      if includeContent then
        match contentLimit with
        | none => els
        | some m => els.map (fun e => { e with content := e.content.take m.toNat })
      else els.map (fun e => { e with content := [] })
    .ok els

/-- Is a line blank (empty or whitespace-only)? -/
def isBlankLine (l : List Char) : Bool := pyStrip l == []

/-- Remove trailing blank lines. -/
def stripTrailingBlank (ls : List (List Char)) : List (List Char) :=
  (ls.reverse.dropWhile isBlankLine).reverse

/-- Blank-line normalization of inserted content.  Modelled from the spec
(§4.4): the inserted block always ends in exactly one blank line before
the following heading/content — one is added when missing, and extra
trailing blank lines never accumulate. -/
def normalizeInsert (content : List (List Char)) : List (List Char) :=
  stripTrailingBlank content ++ [[]]

/-- Number of trailing blank lines of a line list. -/
def trailingBlankCount (ls : List (List Char)) : Nat :=
  (ls.reverse.takeWhile isBlankLine).length

/-- The `insert_content` editor verb on a file given as a line list.
Modelled from the spec (§4.4): `before` inserts at the target section's
start line (1-based), `after` at the line following its span, `append`
at the end of the section's own span; unrecognized positions are an
`invalid-position` error and leave the file unchanged. -/
def insert_content (fileLines : List (List Char)) (startLine endLine : Nat)
    (position : List Char) (content : List (List Char)) :
    Except (List Char) (List (List Char)) :=
  let block := normalizeInsert content
  if position = "before".data then
    .ok (fileLines.take (startLine - 1) ++ block ++ fileLines.drop (startLine - 1))
  else if position = "after".data then
    .ok (fileLines.take endLine ++ block ++ fileLines.drop endLine)
  else if position = "append".data then
    .ok (fileLines.take endLine ++ block ++ fileLines.drop endLine)
  else
    .error "invalid-position".data

mutual

/-- Recursive well-formedness of paths in a section tree: with no parent
the path is `_title_to_slug` of the section's own title, below a parent
it is the parent's path, a dot, and `_title_to_slug` of the title. -/
def pathsOKs (pp : Option (List Char)) : Section → Bool
  | .mk t _ p _ cs _ =>
    (p == (match pp with
      | none => _title_to_slug t
      | some q => q ++ '.' :: _title_to_slug t))
    && pathsOKf (some p) cs

/-- `pathsOKs` over a forest of siblings. -/
def pathsOKf (pp : Option (List Char)) : List Section → Bool
  | [] => true
  | s :: ss => pathsOKs pp s && pathsOKf pp ss

end

mutual

/-- Recursive level discipline of a section tree: every child's level is
strictly greater than its parent's. -/
def levelsOKs (pl : Option Nat) : Section → Bool
  | .mk _ l _ _ cs _ =>
    (match pl with
      | none => true
      | some m => decide (m < l))
    && levelsOKf (some l) cs

/-- `levelsOKs` over a forest of siblings. -/
def levelsOKf (pl : Option Nat) : List Section → Bool
  | [] => true
  | s :: ss => levelsOKs pl s && levelsOKf pl ss

end

/-- Invariant of an open stack frame: its path is consistent with the
optional parent path, and the children accumulated so far are
well-formed below it. -/
def frameOK (pp : Option (List Char)) (f : Frame) : Prop :=
  f.path = pp.elim (_title_to_slug f.title) (fun q => q ++ '.' :: _title_to_slug f.title)
  ∧ pathsOKf (some f.path) f.children = true
  ∧ levelsOKf (some f.level) f.children = true

/-- Invariant of the parsing stack (head = innermost open section):
levels strictly increase towards the head and each frame's path extends
the path of the frame below it. -/
def stackOK : List Frame → Prop
  | [] => True
  | f :: fs =>
    frameOK (fs.head?.map Frame.path) f
    ∧ fs.head?.elim True (fun g => g.level < f.level)
    ∧ stackOK fs

/-- Invariant of the completed top-level sections. -/
def rootsOK (rs : List Section) : Prop :=
  pathsOKf none rs = true ∧ levelsOKf none rs = true

/-- Invariant of the full `_parse_sections` state. -/
def stateOK (st : PState) : Prop :=
  stackOK st.stack ∧ rootsOK st.roots

/-- A just-closed section is attachable to the current stack: below the
innermost open frame's path and level, or a well-formed root when the
stack is empty. -/
def pendOK : Section → List Frame → Prop
  | s, [] => pathsOKs none s = true ∧ levelsOKs none s = true
  | s, g :: _ => pathsOKs (some g.path) s = true ∧ levelsOKs (some g.level) s = true

theorem char_toNat_ofNat_valid {n : Nat} (h : n.isValidChar) : (Char.ofNat n).toNat = n := by
  unfold Char.ofNat
  rw [dif_pos h]
  rfl

theorem toLower_toLower (c : Char) : c.toLower.toLower = c.toLower := by
  unfold Char.toLower
  by_cases h : c.toNat ≥ 65 ∧ c.toNat ≤ 90
  · rw [if_pos h]
    have hv : (c.toNat + 32).isValidChar := Or.inl (by omega)
    rw [char_toNat_ofNat_valid hv, if_neg (by omega)]
  · rw [if_neg h, if_neg h]

theorem subRunsGo_cons_pos_true {p : Char → Bool} {r a : Char} {as : List Char}
    (hp : p a = true) : subRunsGo p r true (a :: as) = subRunsGo p r true as := by
  simp [subRunsGo, hp]

theorem subRunsGo_cons_pos_false {p : Char → Bool} {r a : Char} {as : List Char}
    (hp : p a = true) : subRunsGo p r false (a :: as) = r :: subRunsGo p r true as := by
  simp [subRunsGo, hp]

theorem subRunsGo_cons_neg {p : Char → Bool} {r a : Char} {as : List Char}
    (hp : p a = false) (b : Bool) :
    subRunsGo p r b (a :: as) = a :: subRunsGo p r false as := by
  cases b <;> simp [subRunsGo, hp]

theorem mem_subRunsGo {p : Char → Bool} {r : Char} {b : Bool} {l : List Char} {c : Char}
    (h : c ∈ subRunsGo p r b l) : c = r ∨ (c ∈ l ∧ p c = false) := by
  induction l generalizing b with
  | nil => simp [subRunsGo] at h
  | cons a as ih =>
    by_cases hp : p a = true
    · cases b with
      | true =>
        rw [subRunsGo_cons_pos_true hp] at h
        rcases ih h with h' | h'
        · exact Or.inl h'
        · exact Or.inr ⟨List.mem_cons_of_mem _ h'.1, h'.2⟩
      | false =>
        rw [subRunsGo_cons_pos_false hp] at h
        rcases List.mem_cons.mp h with h' | h'
        · exact Or.inl h'
        · rcases ih h' with h'' | h''
          · exact Or.inl h''
          · exact Or.inr ⟨List.mem_cons_of_mem _ h''.1, h''.2⟩
    · have hpf : p a = false := by simpa using hp
      rw [subRunsGo_cons_neg hpf b] at h
      rcases List.mem_cons.mp h with h' | h'
      · subst h'
        exact Or.inr ⟨List.mem_cons_self _ _, hpf⟩
      · rcases ih h' with h'' | h''
        · exact Or.inl h''
        · exact Or.inr ⟨List.mem_cons_of_mem _ h''.1, h''.2⟩

theorem subRunsGo_id {p : Char → Bool} {r : Char} {l : List Char}
    (h : ∀ c ∈ l, p c = false) : ∀ b, subRunsGo p r b l = l := by
  induction l with
  | nil => intro b; rfl
  | cons a as ih =>
    intro b
    have ha : p a = false := h a (List.mem_cons_self a as)
    have ih' := ih (fun c hc => h c (List.mem_cons_of_mem _ hc)) false
    rw [subRunsGo_cons_neg ha b, ih']

theorem noTwoDash_cons {a : Char} {l : List Char} :
    noTwoDash (a :: l) = true ↔ ((a = '-' → l.head? ≠ some '-') ∧ noTwoDash l = true) := by
  cases l with
  | nil => simp [noTwoDash]
  | cons b bs =>
    simp only [noTwoDash, Bool.and_eq_true, Bool.not_eq_true', Bool.and_eq_false_iff,
      List.head?_cons, beq_eq_false_iff_ne, ne_eq]
    constructor
    · rintro ⟨h1, h2⟩
      refine ⟨?_, h2⟩
      intro ha hb
      rcases h1 with h | h
      · exact h ha
      · exact h (by injection hb)
    · rintro ⟨h1, h2⟩
      refine ⟨?_, h2⟩
      by_cases ha : a = '-'
      · exact Or.inr (fun hb => h1 ha (by rw [hb]))
      · exact Or.inl ha

theorem dashGo_cons_pos_true {as : List Char} :
    subRunsGo (· == '-') '-' true ('-' :: as) = subRunsGo (· == '-') '-' true as := by
  simp [subRunsGo]

theorem dashGo_cons_pos_false {as : List Char} :
    subRunsGo (· == '-') '-' false ('-' :: as) = '-' :: subRunsGo (· == '-') '-' true as := by
  simp [subRunsGo]

theorem dashGo_cons_neg {a : Char} {as : List Char} (ha : a ≠ '-') (b : Bool) :
    subRunsGo (· == '-') '-' b (a :: as) = a :: subRunsGo (· == '-') '-' false as := by
  cases b <;> simp [subRunsGo, ha]

theorem subRunsGo_dash_spec (l : List Char) :
    (noTwoDash (subRunsGo (· == '-') '-' true l) = true
      ∧ (subRunsGo (· == '-') '-' true l).head? ≠ some '-')
    ∧ noTwoDash (subRunsGo (· == '-') '-' false l) = true := by
  induction l with
  | nil => exact ⟨⟨rfl, by simp [subRunsGo]⟩, rfl⟩
  | cons a as ih =>
    by_cases ha : a = '-'
    · subst ha
      constructor
      · rw [dashGo_cons_pos_true]
        exact ih.1
      · rw [dashGo_cons_pos_false, noTwoDash_cons]
        exact ⟨fun _ => ih.1.2, ih.1.1⟩
    · constructor
      · constructor
        · rw [dashGo_cons_neg ha true, noTwoDash_cons]
          exact ⟨fun h => absurd h ha, ih.2⟩
        · rw [dashGo_cons_neg ha true, List.head?_cons]
          intro h
          exact ha (by injection h)
      · rw [dashGo_cons_neg ha false, noTwoDash_cons]
        exact ⟨fun h => absurd h ha, ih.2⟩

theorem subRunsGo_dash_id (l : List Char) :
    (noTwoDash l = true → subRunsGo (· == '-') '-' false l = l)
    ∧ (l.head? ≠ some '-' → noTwoDash l = true → subRunsGo (· == '-') '-' true l = l) := by
  induction l with
  | nil => exact ⟨fun _ => rfl, fun _ _ => rfl⟩
  | cons a as ih =>
    constructor
    · intro h
      rw [noTwoDash_cons] at h
      by_cases ha : a = '-'
      · subst ha
        rw [dashGo_cons_pos_false, ih.2 (h.1 rfl) h.2]
      · rw [dashGo_cons_neg ha false, ih.1 h.2]
    · intro hh h
      rw [noTwoDash_cons] at h
      have ha : a ≠ '-' := by
        intro hc
        exact hh (by rw [hc, List.head?_cons])
      rw [dashGo_cons_neg ha true, ih.1 h.2]

theorem noTwoDash_append_left {a b : List Char} (h : noTwoDash (a ++ b) = true) :
    noTwoDash a = true := by
  induction a with
  | nil => rfl
  | cons x xs ih =>
    rw [List.cons_append, noTwoDash_cons] at h
    rw [noTwoDash_cons]
    refine ⟨?_, ih h.2⟩
    intro hx hh
    apply h.1 hx
    cases xs with
    | nil => simp at hh
    | cons y ys =>
      simpa [List.cons_append] using hh

theorem dropWhile_head_false {α : Type} {p : α → Bool} : ∀ {l : List α} {c : α},
    (l.dropWhile p).head? = some c → p c = false := by
  intro l
  induction l with
  | nil => intro c h; simp [List.dropWhile] at h
  | cons a as ih =>
    intro c h
    by_cases hp : p a = true
    · rw [List.dropWhile_cons_of_pos hp] at h
      exact ih h
    · rw [List.dropWhile_cons_of_neg hp] at h
      rw [List.head?_cons] at h
      injection h with h'
      subst h'
      simpa using hp

theorem dropWhile_eq_self_of_head {α : Type} {p : α → Bool} {l : List α}
    (h : ∀ c, l.head? = some c → p c = false) : l.dropWhile p = l := by
  cases l with
  | nil => rfl
  | cons a as =>
    have ha := h a rfl
    rw [List.dropWhile_cons_of_neg (by simp [ha])]

theorem noTwoDash_append_right {a b : List Char} (h : noTwoDash (a ++ b) = true) :
    noTwoDash b = true := by
  induction a with
  | nil => exact h
  | cons x xs ih =>
    rw [List.cons_append, noTwoDash_cons] at h
    exact ih h.2

theorem stripDashes_head {l : List Char} {c : Char}
    (h : (stripDashes l).head? = some c) : (c == '-') = false := by
  unfold stripDashes at h
  rw [List.head?_reverse] at h
  have hq : ((l.dropWhile (· == '-')).reverse.dropWhile (· == '-')) ≠ [] := by
    intro he
    rw [he] at h
    simp at h
  have hdec := List.takeWhile_append_dropWhile (· == '-')
    ((l.dropWhile (· == '-')).reverse)
  have h2 : ((l.dropWhile (· == '-')).reverse).getLast? = some c := by
    rw [← hdec, List.getLast?_append_of_ne_nil _ hq]
    exact h
  rw [List.getLast?_reverse] at h2
  have h3 := dropWhile_head_false h2
  exact h3

theorem stripDashes_last {l : List Char} {c : Char}
    (h : (stripDashes l).getLast? = some c) : (c == '-') = false := by
  unfold stripDashes at h
  rw [List.getLast?_reverse] at h
  have h3 := dropWhile_head_false h
  exact h3

theorem mem_stripDashes {l : List Char} {c : Char} (h : c ∈ stripDashes l) : c ∈ l := by
  unfold stripDashes at h
  rw [List.mem_reverse] at h
  have h1 := (List.dropWhile_sublist _).mem h
  rw [List.mem_reverse] at h1
  exact (List.dropWhile_sublist _).mem h1

theorem stripDashes_noTwoDash {l : List Char} (h : noTwoDash l = true) :
    noTwoDash (stripDashes l) = true := by
  have hm : noTwoDash (l.dropWhile (· == '-')) = true := by
    refine @noTwoDash_append_right (l.takeWhile (· == '-')) _ ?_
    rw [List.takeWhile_append_dropWhile]
    exact h
  unfold stripDashes
  have hm2 : l.dropWhile (· == '-')
      = ((l.dropWhile (· == '-')).reverse.dropWhile (· == '-')).reverse
        ++ ((l.dropWhile (· == '-')).reverse.takeWhile (· == '-')).reverse := by
    conv_lhs => rw [← List.reverse_reverse (l.dropWhile (· == '-'))]
    rw [← List.reverse_append, List.takeWhile_append_dropWhile]
  rw [hm2] at hm
  exact noTwoDash_append_left hm

theorem stripDashes_id {l : List Char} (h1 : l.head? ≠ some '-')
    (h2 : l.getLast? ≠ some '-') : stripDashes l = l := by
  unfold stripDashes
  have e1 : l.dropWhile (· == '-') = l := by
    apply dropWhile_eq_self_of_head
    intro c hc
    have hne : c ≠ '-' := fun he => h1 (by rw [← he]; exact hc)
    simpa using hne
  rw [e1]
  have e2 : l.reverse.dropWhile (· == '-') = l.reverse := by
    apply dropWhile_eq_self_of_head
    intro c hc
    rw [List.head?_reverse] at hc
    have hne : c ≠ '-' := fun he => h2 (by rw [← he]; exact hc)
    simpa using hne
  rw [e2, List.reverse_reverse]

theorem map_id_of_mem {α : Type} {f : α → α} : ∀ {l : List α},
    (∀ c ∈ l, f c = c) → l.map f = l := by
  intro l
  induction l with
  | nil => intro _; rfl
  | cons a as ih =>
    intro h
    rw [List.map_cons, h a (List.mem_cons_self a as),
      ih (fun c hc => h c (List.mem_cons_of_mem _ hc))]

theorem slugify_chars {x : List Char} {c : Char} (h : c ∈ slugify x) :
    Char.toLower c = c ∧ keepChar c = true ∧ isWsU c = false := by
  unfold slugify at h
  have h2 := mem_stripDashes h
  rcases mem_subRunsGo h2 with h3 | h3
  · subst h3
    refine ⟨by decide, by decide, by decide⟩
  · rcases mem_subRunsGo h3.1 with h4 | h4
    · subst h4
      refine ⟨by decide, by decide, by decide⟩
    · have hk := List.of_mem_filter h4.1
      have hm := List.mem_of_mem_filter h4.1
      rcases List.mem_map.mp hm with ⟨d, _, hd⟩
      subst hd
      exact ⟨toLower_toLower d, hk, h4.2⟩

theorem slugify_noTwoDash (x : List Char) : noTwoDash (slugify x) = true := by
  unfold slugify
  exact stripDashes_noTwoDash (subRunsGo_dash_spec _).2

theorem slugify_head (x : List Char) : (slugify x).head? ≠ some '-' := by
  intro h
  have := @stripDashes_head (subRuns (· == '-') '-'
    (subRuns isWsU '-' ((x.map Char.toLower).filter keepChar))) '-' h
  simp at this

theorem slugify_last (x : List Char) : (slugify x).getLast? ≠ some '-' := by
  intro h
  have := @stripDashes_last (subRuns (· == '-') '-'
    (subRuns isWsU '-' ((x.map Char.toLower).filter keepChar))) '-' h
  simp at this

/-- C2: `slugify` is total (it is a Lean function, and `slugify "" = ""`),
its result is entirely lowercase, contains no space, underscore or double
hyphen, neither starts nor ends with a hyphen, and it is idempotent. -/
theorem c2_slugify_properties (x : List Char) :
    slugify ([] : List Char) = []
    ∧ (slugify x).map Char.toLower = slugify x
    ∧ ' ' ∉ slugify x
    ∧ '_' ∉ slugify x
    ∧ noTwoDash (slugify x) = true
    ∧ (slugify x).head? ≠ some '-'
    ∧ (slugify x).getLast? ≠ some '-'
    ∧ slugify (slugify x) = slugify x := by
  refine ⟨rfl, ?_, ?_, ?_, slugify_noTwoDash x, slugify_head x, slugify_last x, ?_⟩
  · exact map_id_of_mem (fun c hc => (slugify_chars hc).1)
  · intro h
    have := (slugify_chars h).2.2
    simp [isWsU, isWs] at this
  · intro h
    have := (slugify_chars h).2.2
    simp [isWsU] at this
  · have expand : ∀ z : List Char, slugify z
        = stripDashes (subRuns (· == '-') '-'
            (subRuns isWsU '-' ((z.map Char.toLower).filter keepChar))) :=
      fun z => rfl
    rw [expand (slugify x)]
    rw [map_id_of_mem (fun c hc => (slugify_chars hc).1)]
    rw [List.filter_eq_self.mpr (fun c hc => (slugify_chars hc).2.1)]
    rw [show subRuns isWsU '-' (slugify x) = slugify x from
      subRunsGo_id (fun c hc => (slugify_chars hc).2.2) false]
    rw [show subRuns (· == '-') '-' (slugify x) = slugify x from
      (subRunsGo_dash_id (slugify x)).1 (slugify_noTwoDash x)]
    exact stripDashes_id (slugify_head x) (slugify_last x)

theorem pathName_decomp (p : List Char) :
    p = (p.reverse.dropWhile (· ≠ '/')).reverse ++ pathName p := by
  unfold pathName
  conv_lhs => rw [← List.reverse_reverse p]
  rw [← List.reverse_append, List.takeWhile_append_dropWhile]

theorem pathSuffix_decomp (p : List Char) : ∃ q, p = q ++ pathSuffixOf p := by
  unfold pathSuffixOf
  cases hf : (pathName p).reverse.findIdx? (· = '.') with
  | none => exact ⟨p, by simp⟩
  | some j =>
    show ∃ q, p = q ++ (if (decide (0 < (pathName p).length - 1 - j) && decide (0 < j)) = true
      then List.drop ((pathName p).length - 1 - j) (pathName p) else [])
    by_cases hij : (decide (0 < (pathName p).length - 1 - j) && decide (0 < j)) = true
    · rw [if_pos hij]
      refine ⟨(p.reverse.dropWhile (· ≠ '/')).reverse
        ++ (pathName p).take ((pathName p).length - 1 - j), ?_⟩
      rw [List.append_assoc, List.take_append_drop]
      exact pathName_decomp p
    · rw [if_neg hij]
      exact ⟨p, by simp⟩

theorem known_ext_no_backslash {sfx : List Char}
    (h : sfx.map Char.toLower ∈ KNOWN_DOC_EXTENSIONS) : ∀ c ∈ sfx, c ≠ '\\' := by
  intro c hc hcb
  subst hcb
  have hmem : Char.toLower '\\' ∈ sfx.map Char.toLower := List.mem_map_of_mem _ hc
  simp only [KNOWN_DOC_EXTENSIONS, List.mem_cons, List.not_mem_nil, or_false] at h
  rcases h with h | h | h <;> rw [h] at hmem <;> revert hmem <;> decide

/-- C3: `strip_doc_extension` removes the final suffix exactly when it is
a recognized documentation extension, leaving the rest of the
slash-normalized path — hence every other dot — intact; in particular on
`report_v1.2.3.md` only `.md` is stripped and `notes.txt` is unchanged. -/
theorem c3_strip_doc_extension (p : List Char) :
    ((pathSuffixOf p).map Char.toLower ∈ KNOWN_DOC_EXTENSIONS →
      strip_doc_extension p ++ pathSuffixOf p = normSlashes p)
    ∧ ((pathSuffixOf p).map Char.toLower ∉ KNOWN_DOC_EXTENSIONS →
      strip_doc_extension p = normSlashes p)
    ∧ strip_doc_extension "report_v1.2.3.md".data = "report_v1.2.3".data
    ∧ strip_doc_extension "notes.txt".data = "notes.txt".data := by
  refine ⟨?_, ?_, by decide, by decide⟩
  · intro h
    obtain ⟨q, hq⟩ := pathSuffix_decomp p
    unfold strip_doc_extension
    rw [if_pos h]
    generalize hs : pathSuffixOf p = sfx at h hq ⊢
    subst hq
    have hsfx : List.map (fun c => if c = '\\' then '/' else c) sfx = sfx := by
      apply map_id_of_mem
      intro c hc
      simp [known_ext_no_backslash h c hc]
    unfold normSlashes
    rw [List.map_append, List.length_append, List.length_map, List.length_map,
      Nat.add_sub_cancel, hsfx]
    rw [show q.length = (List.map (fun c => if c = '\\' then '/' else c) q).length from
      (List.length_map _ _).symm]
    rw [List.take_left]
  · intro h
    unfold strip_doc_extension
    rw [if_neg h]

theorem c3_strip_doc_extension_witness :
    strip_doc_extension "report_v1.2.3.md".data ++ pathSuffixOf "report_v1.2.3.md".data
      = normSlashes "report_v1.2.3.md".data
    ∧ strip_doc_extension "notes.txt".data = normSlashes "notes.txt".data :=
  ⟨(c3_strip_doc_extension _).1 (by decide),
   (c3_strip_doc_extension _).2.1 (by decide)⟩

theorem pathsOKf_nil (pp : Option (List Char)) : pathsOKf pp [] = true := by
  simp [pathsOKf]

theorem pathsOKf_cons (pp : Option (List Char)) (s : Section) (ss : List Section) :
    pathsOKf pp (s :: ss) = (pathsOKs pp s && pathsOKf pp ss) := by
  simp [pathsOKf]

theorem levelsOKf_nil (pl : Option Nat) : levelsOKf pl [] = true := by
  simp [levelsOKf]

theorem levelsOKf_cons (pl : Option Nat) (s : Section) (ss : List Section) :
    levelsOKf pl (s :: ss) = (levelsOKs pl s && levelsOKf pl ss) := by
  simp [levelsOKf]

theorem pathsOKf_append {pp : Option (List Char)} : ∀ {a b : List Section},
    pathsOKf pp (a ++ b) = (pathsOKf pp a && pathsOKf pp b) := by
  intro a
  induction a with
  | nil => intro b; simp [pathsOKf_nil]
  | cons s ss ih => intro b; simp [pathsOKf_cons, ih, Bool.and_assoc]

theorem levelsOKf_append {pl : Option Nat} : ∀ {a b : List Section},
    levelsOKf pl (a ++ b) = (levelsOKf pl a && levelsOKf pl b) := by
  intro a
  induction a with
  | nil => intro b; simp [levelsOKf_nil]
  | cons s ss ih => intro b; simp [levelsOKf_cons, ih, Bool.and_assoc]

theorem pathsOKs_closeSec_none {f : Frame} (h1 : f.path = _title_to_slug f.title)
    (h2 : pathsOKf (some f.path) f.children = true) :
    pathsOKs none (closeSec f) = true := by
  simp only [closeSec, pathsOKs, Bool.and_eq_true, beq_iff_eq]
  exact ⟨h1, h2⟩

theorem pathsOKs_closeSec_some {q : List Char} {f : Frame}
    (h1 : f.path = q ++ '.' :: _title_to_slug f.title)
    (h2 : pathsOKf (some f.path) f.children = true) :
    pathsOKs (some q) (closeSec f) = true := by
  simp only [closeSec, pathsOKs, Bool.and_eq_true, beq_iff_eq]
  exact ⟨h1, h2⟩

theorem levelsOKs_closeSec_none {f : Frame}
    (h2 : levelsOKf (some f.level) f.children = true) :
    levelsOKs none (closeSec f) = true := by
  simp only [closeSec, levelsOKs, Bool.and_eq_true]
  refine ⟨?_, h2⟩
  simp

theorem levelsOKs_closeSec_some {m : Nat} {f : Frame} (h1 : m < f.level)
    (h2 : levelsOKf (some f.level) f.children = true) :
    levelsOKs (some m) (closeSec f) = true := by
  simp only [closeSec, levelsOKs, Bool.and_eq_true, decide_eq_true_eq]
  exact ⟨h1, h2⟩

theorem frameOK_extend {pp : Option (List Char)} {g f : Frame}
    (hg : frameOK pp g) (hf : frameOK (some g.path) f) (hlt : g.level < f.level) :
    frameOK pp { g with children := g.children ++ [closeSec f] } := by
  obtain ⟨hg1, hg2, hg3⟩ := hg
  obtain ⟨hf1, hf2, hf3⟩ := hf
  refine ⟨hg1, ?_, ?_⟩
  · show pathsOKf (some g.path) (g.children ++ [closeSec f]) = true
    simp only [pathsOKf_append, Bool.and_eq_true]
    exact ⟨hg2, by simp [pathsOKf_cons, pathsOKf_nil, pathsOKs_closeSec_some hf1 hf2]⟩
  · show levelsOKf (some g.level) (g.children ++ [closeSec f]) = true
    simp only [levelsOKf_append, Bool.and_eq_true]
    exact ⟨hg3, by simp [levelsOKf_cons, levelsOKf_nil, levelsOKs_closeSec_some hlt hf3]⟩

theorem stackOK_pop {f g : Frame} {gs : List Frame}
    (h : stackOK (f :: g :: gs)) :
    stackOK ({ g with children := g.children ++ [closeSec f] } :: gs) := by
  obtain ⟨hf, hlt, hg, hm, hrest⟩ := h
  exact ⟨frameOK_extend hg hf hlt, hm, hrest⟩

theorem rootsOK_append_close {r : List Section} {f : Frame}
    (hr : rootsOK r) (hf : frameOK none f) : rootsOK (r ++ [closeSec f]) := by
  obtain ⟨hp, hl⟩ := hr
  obtain ⟨h1, h2, h3⟩ := hf
  constructor
  · simp only [pathsOKf_append, Bool.and_eq_true]
    exact ⟨hp, by simp [pathsOKf_cons, pathsOKf_nil, pathsOKs_closeSec_none h1 h2]⟩
  · simp only [levelsOKf_append, Bool.and_eq_true]
    exact ⟨hl, by simp [levelsOKf_cons, levelsOKf_nil, levelsOKs_closeSec_none h3]⟩

theorem frameOK_root (t : List Char) (lvl : Nat) (loc : SourceLocation) :
    frameOK none ⟨t, lvl, _title_to_slug t, loc, []⟩ :=
  ⟨rfl, pathsOKf_nil _, levelsOKf_nil _⟩

theorem frameOK_child (t : List Char) (lvl : Nat) (loc : SourceLocation) (q : List Char) :
    frameOK (some q) ⟨t, lvl, q ++ '.' :: _title_to_slug t, loc, []⟩ :=
  ⟨rfl, pathsOKf_nil _, levelsOKf_nil _⟩

theorem stackOK_singleton {f : Frame} (h : frameOK none f) : stackOK [f] :=
  ⟨h, trivial, trivial⟩

theorem rootsOK_append_pend {r : List Section} {s : Section}
    (hr : rootsOK r) (h1 : pathsOKs none s = true) (h2 : levelsOKs none s = true) :
    rootsOK (r ++ [s]) := by
  obtain ⟨hp, hl⟩ := hr
  constructor
  · simp [pathsOKf_append, pathsOKf_cons, pathsOKf_nil, hp, h1]
  · simp [levelsOKf_append, levelsOKf_cons, levelsOKf_nil, hl, h2]

theorem frameOK_extendS {pp : Option (List Char)} {g : Frame} {s : Section}
    (hg : frameOK pp g) (hs1 : pathsOKs (some g.path) s = true)
    (hs2 : levelsOKs (some g.level) s = true) :
    frameOK pp { g with children := g.children ++ [s] } := by
  obtain ⟨hg1, hg2, hg3⟩ := hg
  refine ⟨hg1, ?_, ?_⟩
  · show pathsOKf (some g.path) (g.children ++ [s]) = true
    simp [pathsOKf_append, pathsOKf_cons, pathsOKf_nil, hg2, hs1]
  · show levelsOKf (some g.level) (g.children ++ [s]) = true
    simp [levelsOKf_append, levelsOKf_cons, levelsOKf_nil, hg3, hs2]

theorem pendOK_close {g : Frame} {gs : List Frame} {s : Section}
    (hst : stackOK (g :: gs)) (hp : pendOK s (g :: gs)) :
    pendOK (closeSec { g with children := g.children ++ [s] }) gs := by
  obtain ⟨hfg, hlev, hrest⟩ := hst
  obtain ⟨hp1, hp2⟩ := hp
  cases gs with
  | nil =>
    have hg' : frameOK none { g with children := g.children ++ [s] } :=
      frameOK_extendS hfg hp1 hp2
    exact ⟨pathsOKs_closeSec_none hg'.1 hg'.2.1, levelsOKs_closeSec_none hg'.2.2⟩
  | cons g2 gs2 =>
    have hg' : frameOK (some g2.path) { g with children := g.children ++ [s] } :=
      frameOK_extendS hfg hp1 hp2
    exact ⟨pathsOKs_closeSec_some hg'.1 hg'.2.1, levelsOKs_closeSec_some hlev hg'.2.2⟩

theorem popGEAux_ok (lvl : Nat) : ∀ (gs : List Frame) (s : Section) (r : List Section),
    stackOK gs → rootsOK r → pendOK s gs →
    stackOK (popGEAux lvl s gs r).1 ∧ rootsOK (popGEAux lvl s gs r).2
      ∧ ((popGEAux lvl s gs r).1 = []
        ∨ ∃ g gs', (popGEAux lvl s gs r).1 = g :: gs' ∧ g.level < lvl) := by
  intro gs
  induction gs with
  | nil =>
    intro s r _ hr hp
    simp only [popGEAux]
    exact ⟨trivial, rootsOK_append_pend hr hp.1 hp.2, Or.inl (by trivial)⟩
  | cons g gs ih =>
    intro s r hst hr hp
    obtain ⟨hfg, hlev, hrest⟩ := hst
    by_cases hl : lvl ≤ g.level
    · simp only [popGEAux, if_pos hl]
      exact ih _ r hrest hr (pendOK_close ⟨hfg, hlev, hrest⟩ hp)
    · simp only [popGEAux, if_neg hl]
      refine ⟨⟨frameOK_extendS hfg hp.1 hp.2, hlev, hrest⟩, hr,
        Or.inr ⟨_, gs, rfl, ?_⟩⟩
      show g.level < lvl
      omega

theorem pendOK_closeTop {f : Frame} {fs : List Frame}
    (hs : stackOK (f :: fs)) : pendOK (closeSec f) fs := by
  obtain ⟨hff, hlev, hrest⟩ := hs
  cases fs with
  | nil => exact ⟨pathsOKs_closeSec_none hff.1 hff.2.1, levelsOKs_closeSec_none hff.2.2⟩
  | cons g gs =>
    exact ⟨pathsOKs_closeSec_some hff.1 hff.2.1, levelsOKs_closeSec_some hlev hff.2.2⟩

theorem popGE_ok (lvl : Nat) (s : List Frame) (r : List Section)
    (hs : stackOK s) (hr : rootsOK r) :
    stackOK (popGE lvl s r).1 ∧ rootsOK (popGE lvl s r).2
      ∧ ((popGE lvl s r).1 = []
        ∨ ∃ g gs, (popGE lvl s r).1 = g :: gs ∧ g.level < lvl) := by
  cases s with
  | nil =>
    simp only [popGE]
    exact ⟨trivial, hr, Or.inl (by trivial)⟩
  | cons f fs =>
    by_cases hl : lvl ≤ f.level
    · simp only [popGE, if_pos hl]
      exact popGEAux_ok lvl fs (closeSec f) r hs.2.2 hr (pendOK_closeTop hs)
    · simp only [popGE, if_neg hl]
      exact ⟨hs, hr, Or.inr ⟨f, fs, rfl, by omega⟩⟩

theorem closeAllAux_ok : ∀ (gs : List Frame) (s : Section) (r : List Section),
    stackOK gs → rootsOK r → pendOK s gs → rootsOK (closeAllAux s gs r) := by
  intro gs
  induction gs with
  | nil =>
    intro s r _ hr hp
    simp only [closeAllAux]
    exact rootsOK_append_pend hr hp.1 hp.2
  | cons g gs ih =>
    intro s r hst hr hp
    simp only [closeAllAux]
    exact ih _ r hst.2.2 hr (pendOK_close hst hp)

theorem closeAll_ok (s : List Frame) (r : List Section)
    (hs : stackOK s) (hr : rootsOK r) : rootsOK (closeAll s r) := by
  cases s with
  | nil => simpa [closeAll] using hr
  | cons f fs =>
    simp only [closeAll]
    exact closeAllAux_ok fs (closeSec f) r hs.2.2 hr (pendOK_closeTop hs)

theorem pstep_eq_none (attributes : List (List Char × List Char)) (st : PState)
    (li : LineInfo) (hm : matchSectionPattern li.text = none) :
    pstep attributes st li = st := by
  unfold pstep
  rw [hm]

theorem pstep_eq_some (attributes : List (List Char × List Char)) (st : PState)
    (li : LineInfo) (eqs : Nat) (rawTitle : List Char)
    (hm : matchSectionPattern li.text = some (eqs, rawTitle)) :
    pstep attributes st li =
      if eqs - 1 = 0 then
        { roots := closeAll st.stack st.roots
          stack := [⟨_substitute_attributes attributes rawTitle, 0,
            _title_to_slug (_substitute_attributes attributes rawTitle),
            SourceLocation.mk li.file li.line li.resolvedFrom, []⟩]
          dtitle := _substitute_attributes attributes rawTitle }
      else
        match popGE (eqs - 1) st.stack st.roots with
        | ([], roots') =>
          { roots := roots'
            stack := [⟨_substitute_attributes attributes rawTitle, eqs - 1,
              _title_to_slug (_substitute_attributes attributes rawTitle),
              SourceLocation.mk li.file li.line li.resolvedFrom, []⟩]
            dtitle := st.dtitle }
        | (g :: rest, roots') =>
          { roots := roots'
            stack := ⟨_substitute_attributes attributes rawTitle, eqs - 1,
              g.path ++ '.' :: _title_to_slug (_substitute_attributes attributes rawTitle),
              SourceLocation.mk li.file li.line li.resolvedFrom, []⟩ :: (g :: rest)
            dtitle := st.dtitle } := by
  unfold pstep
  rw [hm]

theorem pstep_ok (attributes : List (List Char × List Char)) (li : LineInfo)
    {st : PState} (h : stateOK st) : stateOK (pstep attributes st li) := by
  obtain ⟨hstack, hroots⟩ := h
  cases hm : matchSectionPattern li.text with
  | none =>
    rw [pstep_eq_none attributes st li hm]
    exact ⟨hstack, hroots⟩
  | some er =>
    obtain ⟨eqs, rawTitle⟩ := er
    rw [pstep_eq_some attributes st li eqs rawTitle hm]
    by_cases hl : eqs - 1 = 0
    · rw [if_pos hl]
      exact ⟨stackOK_singleton (frameOK_root _ _ _),
        closeAll_ok st.stack st.roots hstack hroots⟩
    · rw [if_neg hl]
      have hok := popGE_ok (eqs - 1) st.stack st.roots hstack hroots
      cases hpg : popGE (eqs - 1) st.stack st.roots with
      | mk stack' roots' =>
        rw [hpg] at hok
        cases stack' with
        | nil =>
          exact ⟨stackOK_singleton (frameOK_root _ _ _), hok.2.1⟩
        | cons g rest =>
          have hglt : g.level < eqs - 1 := by
            rcases hok.2.2 with h' | ⟨g', gs', hge, hlt⟩
            · simp at h'
            · injection hge with h1 _
              rw [h1]
              exact hlt
          exact ⟨⟨frameOK_child _ _ _ _, hglt, hok.1⟩, hok.2.1⟩

theorem foldl_pstep_ok (attributes : List (List Char × List Char)) :
    ∀ (lines : List LineInfo) (st : PState),
    stateOK st → stateOK (lines.foldl (pstep attributes) st) := by
  intro lines
  induction lines with
  | nil => intro st h; exact h
  | cons li ls ih => intro st h; exact ih _ (pstep_ok attributes li h)

theorem parse_sections_invariant (lines : List LineInfo) (filePath : List Char)
    (attributes : List (List Char × List Char)) :
    pathsOKf none (_parse_sections lines filePath attributes).1 = true
    ∧ levelsOKf none (_parse_sections lines filePath attributes).1 = true := by
  unfold _parse_sections
  by_cases hnil : lines.isEmpty = true
  · rw [if_pos hnil]
    exact ⟨pathsOKf_nil _, levelsOKf_nil _⟩
  · rw [if_neg hnil]
    have h0 : stateOK ⟨[], [], []⟩ := ⟨trivial, pathsOKf_nil _, levelsOKf_nil _⟩
    have hf := foldl_pstep_ok attributes lines ⟨[], [], []⟩ h0
    have hc := closeAll_ok (lines.foldl (pstep attributes) ⟨[], [], []⟩).stack
      (lines.foldl (pstep attributes) ⟨[], [], []⟩).roots hf.1 hf.2
    exact ⟨hc.1, hc.2⟩

/-- C1 (counterexample): for the single-line document `= My_Doc` in file
`report_v1.2.3.adoc`, the root section's path is `my_doc` — the
`_title_to_slug` of the document's own title — which is neither the
`slugify` of the file-prefix (`report-v123`) nor the `slugify` of the
title (`my-doc`), refuting the claimed path rule. -/
theorem c1_counterexample :
    ((_parse_sections [⟨"= My_Doc".data, "report_v1.2.3.adoc".data, 1, none⟩]
        "report_v1.2.3.adoc".data []).1.map Section.path) = ["my_doc".data]
    ∧ "my_doc".data ≠ slugify (strip_doc_extension "report_v1.2.3.adoc".data)
    ∧ "my_doc".data ≠ slugify "My_Doc".data := by
  refine ⟨by decide, by decide, by decide⟩

/-- C1 (amended): in every forest returned by `_parse_sections`, a root
section's path is `_title_to_slug` of its own title (the document title
or a promoted heading, not the file-prefix), and every deeper section's
path is its parent's path joined by `.` to `_title_to_slug` of its own
title; `_title_to_slug` lowercases, drops characters outside `[\w\s-]`
and maps whitespace runs to hyphens, but unlike `slugify` does not
touch underscores or collapse and trim hyphens. -/
theorem c1_path_composition (lines : List LineInfo) (filePath : List Char)
    (attributes : List (List Char × List Char)) :
    pathsOKf none (_parse_sections lines filePath attributes).1 = true :=
  (parse_sections_invariant lines filePath attributes).1

/-- C10: `_parse_sections` is total, every child section's level in the
returned forest is strictly greater than its parent's level, and a
heading with no open shallower ancestor — here a level-1 heading before
any level-0 document title — becomes a top-level root whose path is the
slug of its own title. -/
theorem c10_parser_invariant (lines : List LineInfo) (filePath : List Char)
    (attributes : List (List Char × List Char)) :
    levelsOKf none (_parse_sections lines filePath attributes).1 = true
    ∧ ((_parse_sections [⟨"== Sub Heading".data, "d.adoc".data, 1, none⟩]
        "d.adoc".data []).1.map (fun s => (s.title, s.level, s.path, s.children.length)))
      = [("Sub Heading".data, 1, "sub-heading".data, 0)] :=
  ⟨(parse_sections_invariant lines filePath attributes).2, by decide⟩

theorem pruneSec_path (N : Nat) (s : Section) : (pruneSec N s).path = s.path := by
  cases N <;> cases s <;> rfl

theorem pruneSec_children_zero (s : Section) : (pruneSec 0 s).children = [] := by
  cases s
  rfl

theorem pruneSec_children_succ (M : Nat) (s : Section) :
    (pruneSec (M + 1) s).children = s.children.map (pruneSec M) := by
  cases s
  rfl

theorem atDepthPaths_nil (d : Nat) : atDepthPaths d [] = [] := by
  cases d <;> rfl

theorem atDepthPaths_prune_le : ∀ (d N : Nat) (F : List Section), d ≤ N →
    atDepthPaths d (F.map (pruneSec N)) = atDepthPaths d F := by
  intro d
  induction d with
  | zero =>
    intro N F _
    simp only [atDepthPaths, List.map_map]
    exact List.map_congr_left (fun s _ => pruneSec_path N s)
  | succ d ih =>
    intro N F hle
    cases N with
    | zero => omega
    | succ M =>
      simp only [atDepthPaths, List.map_map]
      congr 1
      apply List.map_congr_left
      intro s _
      show atDepthPaths d (pruneSec (M + 1) s).children = atDepthPaths d s.children
      rw [pruneSec_children_succ]
      exact ih M s.children (by omega)

theorem atDepthPaths_prune_gt : ∀ (d N : Nat) (F : List Section), N < d →
    atDepthPaths d (F.map (pruneSec N)) = [] := by
  intro d
  induction d with
  | zero => intro N F h; omega
  | succ d ih =>
    intro N F h
    induction F with
    | nil => exact atDepthPaths_nil _
    | cons s ss ihF =>
      simp only [List.map_cons, atDepthPaths, List.map_cons, List.flatten_cons] at ihF ⊢
      rw [show atDepthPaths d (pruneSec N s).children = [] from ?_]
      · simpa using ihF
      · cases N with
        | zero =>
          rw [pruneSec_children_zero]
          exact atDepthPaths_nil _
        | succ M =>
          rw [pruneSec_children_succ]
          exact ih M s.children (by omega)

/-- C4: `get_structure(max_depth=N)` returns exactly the sections of
depth at most `N` — section paths at each depth `d ≤ N` coincide with
those of the full forest and no section of depth `> N` survives, with
`max_depth=0` yielding the document-level roots with empty children —
while `total_sections` always counts the entire index, unaffected by
pruning. -/
theorem c4_get_structure_depth (idx : StructureIndex) (N d : Nat) :
    (d ≤ N → atDepthPaths d ((get_structure idx (some N)).sections)
      = atDepthPaths d idx.forest)
    ∧ (N < d → atDepthPaths d ((get_structure idx (some N)).sections) = [])
    ∧ (get_structure idx (some N)).totalSections = countAllF idx.forest
    ∧ (∀ s ∈ (get_structure idx (some 0)).sections, s.children = [])
    ∧ (get_structure idx none).sections = idx.forest := by
  refine ⟨fun h => atDepthPaths_prune_le d N idx.forest h,
    fun h => atDepthPaths_prune_gt d N idx.forest h, rfl, ?_, rfl⟩
  intro s hs
  simp only [get_structure, List.mem_map] at hs
  obtain ⟨t, _, ht⟩ := hs
  rw [← ht]
  exact pruneSec_children_zero t

theorem c4_get_structure_depth_witness :
    (atDepthPaths 1 ((get_structure
        ⟨[], [], [Section.mk "D".data 0 "d".data (.mk [] 1 none)
          [Section.mk "A".data 1 "d.a".data (.mk [] 2 none)
            [Section.mk "B".data 2 "d.a.b".data (.mk [] 3 none) [] none] none] none], [], []⟩
        (some 1)).sections)
      = atDepthPaths 1 [Section.mk "D".data 0 "d".data (.mk [] 1 none)
          [Section.mk "A".data 1 "d.a".data (.mk [] 2 none)
            [Section.mk "B".data 2 "d.a.b".data (.mk [] 3 none) [] none] none] none])
    ∧ atDepthPaths 2 ((get_structure
        ⟨[], [], [Section.mk "D".data 0 "d".data (.mk [] 1 none)
          [Section.mk "A".data 1 "d.a".data (.mk [] 2 none)
            [Section.mk "B".data 2 "d.a.b".data (.mk [] 3 none) [] none] none] none], [], []⟩
        (some 1)).sections) = [] :=
  ⟨(c4_get_structure_depth _ 1 1).1 (by decide),
   (c4_get_structure_depth _ 1 2).2.1 (by decide)⟩

theorem assocFind_nil {α : Type} (k : List Char) :
    assocFind ([] : List (List Char × α)) k = none := rfl

theorem assocFind_cons {α : Type} (k0 : List Char) (v0 : α)
    (rest : List (List Char × α)) (k' : List Char) :
    assocFind ((k0, v0) :: rest) k' = if k0 = k' then some v0 else assocFind rest k' := by
  by_cases h : k0 = k'
  · subst h
    simp [assocFind, List.find?]
  · have hbe : (k0 == k') = false := by simpa using h
    simp [assocFind, List.find?, hbe, h]

theorem assocSet_nil {α : Type} (k : List Char) (v : α) :
    assocSet ([] : List (List Char × α)) k v = [(k, v)] := rfl

theorem assocSet_cons_eq {α : Type} {k0 : List Char} (v0 : α)
    (rest : List (List Char × α)) {k : List Char} (v : α) (h : k0 = k) :
    assocSet ((k0, v0) :: rest) k v = (k, v) :: rest := by
  simp [assocSet, h]

theorem assocSet_cons_ne {α : Type} {k0 : List Char} (v0 : α)
    (rest : List (List Char × α)) {k : List Char} (v : α) (h : ¬ k0 = k) :
    assocSet ((k0, v0) :: rest) k v = (k0, v0) :: assocSet rest k v := by
  simp [assocSet, h]

theorem assocFind_assocSet {α : Type} : ∀ (m : List (List Char × α)) (k k' : List Char) (v : α),
    assocFind (assocSet m k v) k' = if k' = k then some v else assocFind m k' := by
  intro m
  induction m with
  | nil =>
    intro k k' v
    rw [assocSet_nil, assocFind_cons, assocFind_nil]
    by_cases h2 : k' = k
    · simp [h2]
    · simp [h2, Ne.symm h2]
  | cons e rest ih =>
    intro k k' v
    obtain ⟨k0, v0⟩ := e
    by_cases h0 : k0 = k
    · subst h0
      rw [assocSet_cons_eq v0 rest v rfl, assocFind_cons, assocFind_cons]
      by_cases h2 : k' = k0
      · simp [h2]
      · simp [h2, Ne.symm h2]
    · rw [assocSet_cons_ne v0 rest v h0, assocFind_cons, assocFind_cons, ih]
      by_cases h1 : k0 = k'
      · by_cases h2 : k' = k
        · exact absurd (h1.trans h2) h0
        · simp [h1, h2]
      · by_cases h2 : k' = k
        · simp [h1, h2, h0]
        · simp [h1, h2]

theorem assocFind_append_single {α : Type} : ∀ (m : List (List Char × α)) (k k' : List Char) (v : α),
    assocFind (m ++ [(k, v)]) k'
      = match assocFind m k' with
        | some w => some w
        | none => if k' = k then some v else none := by
  intro m
  induction m with
  | nil =>
    intro k k' v
    rw [List.nil_append, assocFind_cons, assocFind_nil]
    by_cases h2 : k' = k
    · simp [h2]
    · simp [h2, Ne.symm h2]
  | cons e rest ih =>
    intro k k' v
    obtain ⟨k0, v0⟩ := e
    rw [List.cons_append, assocFind_cons, assocFind_cons, ih]
    by_cases h : k0 = k'
    · simp [h]
    · simp [h]

theorem assocFind_regOne (st : BuildState) (s : Section) (p : List Char) :
    assocFind (regOne st s).flat p = if p = s.path then some s else assocFind st.flat p := by
  unfold regOne
  cases hf : assocFind st.flat s.path with
  | some old =>
    simp only
    exact assocFind_assocSet st.flat s.path p s
  | none =>
    simp only
    rw [assocFind_append_single]
    by_cases h : p = s.path
    · subst h
      rw [hf]
    · cases hq : assocFind st.flat p with
      | some w => simp [hq, h]
      | none => simp [hq, h]

theorem regOne_warnings_sub {st : BuildState} {s : Section} {w : Warning}
    (h : w ∈ st.warnings) : w ∈ (regOne st s).warnings := by
  unfold regOne
  cases assocFind st.flat s.path with
  | some old => exact List.mem_append_left _ h
  | none => exact h

theorem foldl_regOne_warnings_mono : ∀ (all : List Section) (st : BuildState) {w : Warning},
    w ∈ st.warnings → w ∈ (all.foldl regOne st).warnings := by
  intro all
  induction all with
  | nil => intro st w h; exact h
  | cons a rest ih => intro st w h; exact ih _ (regOne_warnings_sub h)

theorem foldl_regOne_find : ∀ (all : List Section) (st : BuildState) (p : List Char),
    assocFind (all.foldl regOne st).flat p
      = match all.reverse.find? (fun s => s.path == p) with
        | some s => some s
        | none => assocFind st.flat p := by
  intro all
  induction all with
  | nil => intro st p; simp
  | cons a rest ih =>
    intro st p
    rw [List.foldl_cons, ih, List.reverse_cons, List.find?_append]
    cases h1 : rest.reverse.find? (fun s => s.path == p) with
    | some w => simp [Option.or]
    | none =>
      simp only [Option.or, List.find?]
      cases hpa : a.path == p with
      | true =>
        have hpe : a.path = p := by simpa using hpa
        rw [assocFind_regOne, if_pos hpe.symm]
      | false =>
        have hne : ¬ p = a.path := fun hc => by simp [hc] at hpa
        rw [assocFind_regOne, if_neg hne]

theorem foldl_regOne_warning : ∀ (all : List Section) (st : BuildState) (p : List Char),
    (2 ≤ (all.filter (fun s => s.path == p)).length
      ∨ (1 ≤ (all.filter (fun s => s.path == p)).length
          ∧ (assocFind st.flat p).isSome = true)) →
    ∃ w ∈ (all.foldl regOne st).warnings, w.wtype = "duplicate_path".data ∧ w.wpath = p := by
  intro all
  induction all with
  | nil =>
    intro st p h
    simp only [List.filter_nil, List.length_nil] at h
    rcases h with h | ⟨h1, _⟩
    · omega
    · omega
  | cons a rest ih =>
    intro st p h
    rw [List.foldl_cons]
    cases hpa : a.path == p with
    | true =>
      have hpe : a.path = p := by simpa using hpa
      rw [show (a :: rest).filter (fun s => s.path == p)
          = a :: rest.filter (fun s => s.path == p) from by simp [List.filter_cons, hpa],
        List.length_cons] at h
      cases hfa : assocFind st.flat a.path with
      | some old =>
        refine ⟨⟨"duplicate_path".data, a.path, mkDupMessage a.path old.loc a.loc⟩,
          ?_, rfl, hpe⟩
        refine foldl_regOne_warnings_mono rest (regOne st a) ?_
        unfold regOne
        rw [hfa]
        simp
      | none =>
        have hlen : 1 ≤ (rest.filter (fun s => s.path == p)).length := by
          rcases h with h | ⟨h1, h2⟩
          · omega
          · exfalso
            rw [← hpe] at h2
            rw [hfa] at h2
            simp at h2
        refine ih (regOne st a) p (Or.inr ⟨hlen, ?_⟩)
        rw [assocFind_regOne, if_pos hpe.symm]
        rfl
    | false =>
      have hne : ¬ p = a.path := fun hc => by simp [hc] at hpa
      rw [show (a :: rest).filter (fun s => s.path == p) = rest.filter (fun s => s.path == p)
        from by simp [List.filter_cons, hpa]] at h
      refine ih (regOne st a) p ?_
      rcases h with h | ⟨h1, h2⟩
      · exact Or.inl h
      · refine Or.inr ⟨h1, ?_⟩
        rw [assocFind_regOne, if_neg hne]
        exact h2

theorem collect_append : ∀ (a b : List Section),
    collect_all_sections (a ++ b) = collect_all_sections a ++ collect_all_sections b := by
  intro a
  induction a with
  | nil => intro b; simp [collect_all_sections]
  | cons s ss ih =>
    intro b
    rw [List.cons_append]
    show collectSec s ++ collect_all_sections (ss ++ b)
      = (collectSec s ++ collect_all_sections ss) ++ collect_all_sections b
    rw [ih, List.append_assoc]

theorem collect_flatMap (docs : List Document) :
    collect_all_sections (docs.flatMap (fun d => d.sections))
      = docs.flatMap (fun d => collect_all_sections d.sections) := by
  induction docs with
  | nil => rfl
  | cons d rest ih =>
    rw [List.flatMap_cons, List.flatMap_cons, collect_append, ih]

/-- C5: whenever two registered sections collide on a path, building the
index does not fail: a `duplicate_path` warning carrying that path is
returned, the flat lookup map resolves the path to the most recently
registered section with it (last write wins), and the forest still
retains every section of every document. -/
theorem c5_duplicate_paths (docs : List Document) (p : List Char)
    (h : 2 ≤ ((allSections docs).filter (fun s => s.path == p)).length) :
    (∃ w ∈ (build_from_documents docs).warnings,
      w.wtype = "duplicate_path".data ∧ w.wpath = p)
    ∧ get_section (build_from_documents docs) p
        = (allSections docs).reverse.find? (fun s => s.path == p)
    ∧ collect_all_sections (build_from_documents docs).forest = allSections docs := by
  refine ⟨foldl_regOne_warning (allSections docs) ⟨[], []⟩ p (Or.inl h), ?_, ?_⟩
  · show assocFind ((allSections docs).foldl regOne ⟨[], []⟩).flat p = _
    rw [foldl_regOne_find]
    cases (allSections docs).reverse.find? (fun s => s.path == p) with
    | some w => rfl
    | none => rfl
  · exact collect_flatMap docs

theorem c5_duplicate_paths_witness :
    (∃ w ∈ (build_from_documents
        [⟨"a.md".data, "A".data,
          [Section.mk "Introduction".data 1 "intro".data (.mk "a.md".data 1 none) [] none],
          [], [], []⟩,
         ⟨"b.md".data, "B".data,
          [Section.mk "Introduction".data 1 "intro".data (.mk "b.md".data 3 none) [] none],
          [], [], []⟩]).warnings,
      w.wtype = "duplicate_path".data ∧ w.wpath = "intro".data) :=
  (c5_duplicate_paths
    [⟨"a.md".data, "A".data,
      [Section.mk "Introduction".data 1 "intro".data (.mk "a.md".data 1 none) [] none],
      [], [], []⟩,
     ⟨"b.md".data, "B".data,
      [Section.mk "Introduction".data 1 "intro".data (.mk "b.md".data 3 none) [] none],
      [], [], []⟩] "intro".data (by decide)).1

/-- C6: `validate_structure` reports an `unresolved_include` error whose
message names the missing file for every include whose target does not
exist on disk, and the `valid` flag is false exactly when at least one
error exists — warnings never affect it. -/
theorem c6_validate_unresolved (idx : StructureIndex) (existing : List (List Char)) :
    (∀ inc ∈ allIncludes idx, existing.contains inc.target_path = false →
      ∃ e ∈ (validate_structure idx existing).errors,
        e.ftype = "unresolved_include".data
        ∧ ∃ pre post, e.message = pre ++ inc.target_path ++ post)
    ∧ ((validate_structure idx existing).valid = true
        ↔ (validate_structure idx existing).errors = []) := by
  constructor
  · intro inc hmem hmiss
    refine ⟨Finding.mk "unresolved_include".data (mkUnresolvedMessage inc), ?_, rfl,
      "unresolved include: ".data, " does not exist".data, rfl⟩
    show Finding.mk "unresolved_include".data (mkUnresolvedMessage inc)
      ∈ ((allIncludes idx).filter (fun i => !(existing.contains i.target_path))).map
          (fun i => Finding.mk "unresolved_include".data (mkUnresolvedMessage i))
    exact List.mem_map_of_mem _ (List.mem_filter.mpr ⟨hmem, by simpa using hmiss⟩)
  · show (((allIncludes idx).filter
        (fun i => !(existing.contains i.target_path))).map
          (fun i => Finding.mk "unresolved_include".data (mkUnresolvedMessage i))).isEmpty = true
      ↔ _ = ([] : List Finding)
    rw [List.isEmpty_iff]
    exact Iff.rfl

theorem c6_validate_unresolved_witness :
    ∃ e ∈ (validate_structure
        ⟨[], [], [],
          [("a.adoc".data,
            [⟨SourceLocation.mk "a.adoc".data 2 none, "missing.adoc".data, []⟩])], []⟩
        ["a.adoc".data]).errors,
      e.ftype = "unresolved_include".data
      ∧ ∃ pre post, e.message = pre ++ "missing.adoc".data ++ post :=
  (c6_validate_unresolved _ _).1
    ⟨SourceLocation.mk "a.adoc".data 2 none, "missing.adoc".data, []⟩
    (List.mem_singleton.mpr rfl) (by decide)

theorem expandStep_capped {fs : FS} {mid : Nat} {filePath : List Char} {depth : Nat}
    (h : mid ≤ depth) (acc : List LineInfo × List IncludeInfo) (nl : Nat × List Char) :
    expandStep fs mid filePath depth acc nl
      = (acc.1 ++ [LineInfo.mk nl.2 filePath nl.1 none], acc.2) := by
  unfold expandStep
  split
  · split
    · rename_i hlt
      exact absurd hlt (by omega)
    · rfl
  · rfl

theorem foldl_expandStep_capped {fs : FS} {mid : Nat} {filePath : List Char} {depth : Nat}
    (h : mid ≤ depth) : ∀ (l : List (Nat × List Char)) (acc : List LineInfo × List IncludeInfo),
    l.foldl (expandStep fs mid filePath depth) acc
      = (acc.1 ++ l.map (fun nl => LineInfo.mk nl.2 filePath nl.1 none), acc.2) := by
  intro l
  induction l with
  | nil => intro acc; simp
  | cons nl rest ih =>
    intro acc
    rw [List.foldl_cons, expandStep_capped h, ih]
    simp

/-- C7: include handling terminates (all functions are total): the
expansion depth cap is the explicit default of 20, at or beyond which
include lines pass through unexpanded with no includes recorded; and for
two concrete mutually-including documents, parsing succeeds for both
and validation surfaces a `circular_include` finding. -/
theorem c7_include_cycle (fs : FS) (lines : List (List Char)) (filePath : List Char) (d : Nat) :
    defaultMaxIncludeDepth = 20
    ∧ (defaultMaxIncludeDepth ≤ d →
        _expand_includes fs defaultMaxIncludeDepth lines filePath d
          = ((List.enumFrom 1 lines).map (fun nl => LineInfo.mk nl.2 filePath nl.1 none), []))
    ∧ (parse_file
        [("a.adoc".data, ["= A".data, "include::b.adoc[]".data]),
         ("b.adoc".data, ["= B".data, "include::a.adoc[]".data])]
        defaultMaxIncludeDepth "a.adoc".data 0).isSome = true
    ∧ (parse_file
        [("a.adoc".data, ["= A".data, "include::b.adoc[]".data]),
         ("b.adoc".data, ["= B".data, "include::a.adoc[]".data])]
        defaultMaxIncludeDepth "b.adoc".data 0).isSome = true
    ∧ (∃ w ∈ (validate_structure
        (build_from_documents
          ((parse_file
            [("a.adoc".data, ["= A".data, "include::b.adoc[]".data]),
             ("b.adoc".data, ["= B".data, "include::a.adoc[]".data])]
            defaultMaxIncludeDepth "a.adoc".data 0).toList
          ++ (parse_file
            [("a.adoc".data, ["= A".data, "include::b.adoc[]".data]),
             ("b.adoc".data, ["= B".data, "include::a.adoc[]".data])]
            defaultMaxIncludeDepth "b.adoc".data 0).toList))
        ["a.adoc".data, "b.adoc".data]).warnings,
      w.wtype = "circular_include".data) := by
  refine ⟨rfl, ?_, by decide, by decide, by decide⟩
  intro hd
  unfold _expand_includes
  rw [foldl_expandStep_capped hd]
  simp

theorem c7_include_cycle_witness :
    _expand_includes [] defaultMaxIncludeDepth
        ["include::b.adoc[]".data] "a.adoc".data 20
      = ([LineInfo.mk "include::b.adoc[]".data "a.adoc".data 1 none], []) := by
  have h := (c7_include_cycle [] ["include::b.adoc[]".data] "a.adoc".data 20).2.1
    (by decide)
  rw [h]
  rfl

/-- C8: the tool layer rejects negative `max_results`, `max_depth` and
`content_limit` and non-positive `level` eagerly with a caller error
naming the parameter and its valid range, and never silently clamps:
the call never returns an `ok` payload. -/
theorem c8_negative_params (idx : StructureIndex) (contentOf : List Char → List Char)
    (query : List Char) (scope : Option (List Char)) (caseSensitive : Bool)
    (docs : List Document) (elementType : Option (List Char)) (includeContent : Bool)
    (mr md cl lvl : Int) :
    (mr < 0 →
      search idx contentOf query scope caseSensitive (some mr)
        = .callerError "max_results must be non-negative".data
      ∧ ∀ r, search idx contentOf query scope caseSensitive (some mr) ≠ .ok r)
    ∧ (md < 0 →
      get_structure_tool idx (some md)
        = .callerError "max_depth must be non-negative".data
      ∧ ∀ r, get_structure_tool idx (some md) ≠ .ok r)
    ∧ (lvl ≤ 0 →
      get_sections_at_level idx lvl = .callerError "level must be positive".data
      ∧ ∀ r, get_sections_at_level idx lvl ≠ .ok r)
    ∧ (cl < 0 →
      get_elements docs elementType includeContent (some cl)
        = .callerError "content_limit must be non-negative".data
      ∧ ∀ r, get_elements docs elementType includeContent (some cl) ≠ .ok r) := by
  refine ⟨fun h => ⟨?_, ?_⟩, fun h => ⟨?_, ?_⟩, fun h => ⟨?_, ?_⟩, fun h => ⟨?_, ?_⟩⟩
  · unfold search
    rw [if_pos (by simp [h])]
  · intro r hr
    unfold search at hr
    rw [if_pos (by simp [h])] at hr
    exact ToolResult.noConfusion hr
  · unfold get_structure_tool
    rw [if_pos (by simp [h])]
  · intro r hr
    unfold get_structure_tool at hr
    rw [if_pos (by simp [h])] at hr
    exact ToolResult.noConfusion hr
  · unfold get_sections_at_level
    rw [if_pos h]
  · intro r hr
    unfold get_sections_at_level at hr
    rw [if_pos h] at hr
    exact ToolResult.noConfusion hr
  · unfold get_elements
    rw [if_pos (by simp [h])]
  · intro r hr
    unfold get_elements at hr
    rw [if_pos (by simp [h])] at hr
    exact ToolResult.noConfusion hr

theorem c8_negative_params_witness :
    search ⟨[], [], [], [], []⟩ (fun _ => []) "test".data none false (some (-5))
      = .callerError "max_results must be non-negative".data
    ∧ get_structure_tool ⟨[], [], [], [], []⟩ (some (-1))
      = .callerError "max_depth must be non-negative".data
    ∧ get_sections_at_level ⟨[], [], [], [], []⟩ 0
      = .callerError "level must be positive".data
    ∧ get_elements [] none true (some (-10))
      = .callerError "content_limit must be non-negative".data :=
  ⟨((c8_negative_params ⟨[], [], [], [], []⟩ (fun _ => []) "test".data none false
      [] none true (-5) (-1) (-10) 0).1 (by decide)).1,
   ((c8_negative_params ⟨[], [], [], [], []⟩ (fun _ => []) "test".data none false
      [] none true (-5) (-1) (-10) 0).2.1 (by decide)).1,
   ((c8_negative_params ⟨[], [], [], [], []⟩ (fun _ => []) "test".data none false
      [] none true (-5) (-1) (-10) 0).2.2.1 (by decide)).1,
   ((c8_negative_params ⟨[], [], [], [], []⟩ (fun _ => []) "test".data none false
      [] none true (-5) (-1) (-10) 0).2.2.2 (by decide)).1⟩

theorem takeWhile_dropWhile_nil {α : Type} (p : α → Bool) (l : List α) :
    (l.dropWhile p).takeWhile p = [] := by
  cases hd : l.dropWhile p with
  | nil => rfl
  | cons a rest =>
    have ha : p a = false := dropWhile_head_false (by rw [hd]; rfl)
    simp [List.takeWhile_cons, ha]

/-- C9: an inserted block always ends in exactly one blank line before
the adjacent content — trailing blank lines of the caller's content are
normalized so none accumulate, and a missing one is added — and
`insert_content` with positions `before`/`after` splices exactly this
normalized block at the section boundary. -/
theorem c9_insert_blank_line (fileLines : List (List Char)) (startLine endLine : Nat)
    (content : List (List Char)) :
    trailingBlankCount (normalizeInsert content) = 1
    ∧ insert_content fileLines startLine endLine "before".data content
        = .ok (fileLines.take (startLine - 1) ++ normalizeInsert content
            ++ fileLines.drop (startLine - 1))
    ∧ insert_content fileLines startLine endLine "after".data content
        = .ok (fileLines.take endLine ++ normalizeInsert content ++ fileLines.drop endLine)
    ∧ normalizeInsert content = stripTrailingBlank content ++ [[]] := by
  refine ⟨?_, rfl, rfl, rfl⟩
  unfold trailingBlankCount normalizeInsert
  rw [List.reverse_append]
  show (([[]] ++ (stripTrailingBlank content).reverse).takeWhile isBlankLine).length = 1
  rw [List.cons_append, List.nil_append, List.takeWhile_cons]
  rw [if_pos (by decide)]
  unfold stripTrailingBlank
  rw [List.reverse_reverse, takeWhile_dropWhile_nil]
  rfl

end Dacli
